import Mathlib

/-!
Verification development for the ASCII-art converter core
(`backend/ascii_maker.py` of the repository).

The Python code is shallowly embedded: pure computations become Lean
functions over `Nat`/`Int`/`Rat` (Python floats are modelled as exact
rationals, Python `int()` truncation is `Nat.floor` on the non-negative
values that occur here), images are lists of rows of RGB triples, and the
stateful video-export path is modelled by explicit state passing.
-/

namespace AsciiArt

/-- An 8-bit RGB pixel, each channel a natural number (0..255 in valid data). -/
abbrev Pixel := ℕ × ℕ × ℕ

/-- A raster frame: a list of rows, each row a list of RGB pixels. -/
abbrev Frame := List (List Pixel)

/-- A rendered output raster, same representation as a source frame. -/
abbrev Raster := List (List Pixel)

/-- The glyph ramp `CHARS = " .:-=#"` of `ImageToASCII` (ascii_maker.py line 11). -/
def CHARS : List Char := [' ', '.', ':', '-', '=', '#']

/-- The fixed vertical scale `self.scale = 0.43` (line 29), as the exact rational
standing for the Python float literal. -/
def SCALE : ℚ := 43 / 100

/-- Size behaviour of `ImageToASCII.resize_image` (lines 34-39): the returned PIL
image has size `(self.width, int(self.width * (h / w) * self.scale))`.  Python
`int()` truncates toward zero; the value is non-negative here, so it is the
floor.  Pixel contents of the resized image are produced by the external PIL
resampler and are not modelled. -/
def resize_image (width srcW srcH : ℕ) : ℕ × ℕ :=
  (width, ⌊(width : ℚ) * ((srcH : ℚ) / (srcW : ℚ)) * SCALE⌋₊)

/-- The ramp index `int((brightness / 255) * (len(self.chars) - 1))` computed by
`ImageToASCII.get_char` (line 50). -/
def char_index (b : ℕ) : ℕ :=
  ⌊((b : ℚ) / 255) * ((CHARS.length - 1 : ℕ) : ℚ)⌋₊

/-- `ImageToASCII.get_char` (lines 48-51): select the ramp character at
`char_index`.  The Python indexing is total for brightness in 0..255; `getD`
supplies a default outside that range. -/
def get_char (b : ℕ) : Char := CHARS.getD (char_index b) ' '

/-- Helper: the rational floor of `b / 255 * (L - 1)` is the natural division
`b * (L - 1) / 255`. -/
lemma char_index_eq_div (b : ℕ) :
    char_index b = b * (CHARS.length - 1) / 255 := by
  unfold char_index
  have h1 : ((b : ℚ) / 255) * ((CHARS.length - 1 : ℕ) : ℚ)
      = ((b * (CHARS.length - 1) : ℕ) : ℚ) / ((255 : ℕ) : ℚ) := by
    push_cast
    ring
  rw [h1, Nat.floor_div_nat, Nat.floor_natCast]

/-- C1 counterexample.  The spec's own scenario (a 200×100 source,
`targetWidth = 100`, `verticalScale = 0.43`) does not give the claimed
`round(100 * 0.5 * 0.43) = 22` rows: the code truncates `21.5` to 21 rows.
Moreover there is no minimum of one row: a 1000×1 source at `targetWidth = 10`
yields 0 rows. -/
theorem resize_image_round_cex :
    (resize_image 100 200 100).2 ≠ 22 ∧ (resize_image 10 1000 1).2 = 0 := by
  have h1 : (resize_image 100 200 100).2 = 21 := by
    unfold resize_image SCALE
    norm_num [Nat.floor_eq_iff]
  have h2 : (resize_image 10 1000 1).2 = 0 := by
    unfold resize_image SCALE
    norm_num
  rw [h1, h2]
  exact ⟨by decide, rfl⟩

/-- C1 (amended).  For every source raster with positive width `srcW`, the
resized frame has exactly `width` columns and `⌊width * (srcH / srcW) * 0.43⌋`
rows (truncation, not rounding, and with no minimum-row clamp); equivalently
the row count is the natural division `width * srcH * 43 / (srcW * 100)`. -/
theorem resize_image_dims (width srcW srcH : ℕ) (hW : 0 < srcW) :
    resize_image width srcW srcH = (width, width * srcH * 43 / (srcW * 100)) := by
  unfold resize_image
  have hW' : ((srcW : ℚ)) ≠ 0 := by
    exact_mod_cast hW.ne'
  have h1 : (width : ℚ) * ((srcH : ℚ) / (srcW : ℚ)) * SCALE
      = ((width * srcH * 43 : ℕ) : ℚ) / ((srcW * 100 : ℕ) : ℚ) := by
    unfold SCALE
    push_cast
    field_simp
  rw [h1, Nat.floor_div_nat, Nat.floor_natCast]

/-- Witness for `resize_image_dims` at the spec's scenario input. -/
theorem resize_image_dims_witness :
    0 < 200 ∧ resize_image 100 200 100 = (100, 100 * 100 * 43 / (200 * 100)) :=
  ⟨by decide, resize_image_dims 100 200 100 (by decide)⟩

/-- C2.  For brightness `b` in `[0, 255]`, `get_char` returns the ramp character
at index `⌊b / 255 * (L - 1)⌋`; at `b = 0` it returns `ramp[0]` and at
`b = 255` it returns `ramp[L - 1]`. -/
theorem get_char_spec (b : ℕ) (hb : b ≤ 255) :
    get_char b = CHARS.getD (b * (CHARS.length - 1) / 255) ' ' ∧
    get_char 0 = CHARS.getD 0 ' ' ∧
    get_char 255 = CHARS.getD (CHARS.length - 1) ' ' := by
  refine ⟨?_, ?_, ?_⟩
  · unfold get_char
    rw [char_index_eq_div]
  · unfold get_char
    rw [char_index_eq_div]
    decide
  · unfold get_char
    rw [char_index_eq_div]
    decide

/-- Witness for `get_char_spec` at brightness 128. -/
theorem get_char_spec_witness :
    128 ≤ 255 ∧ get_char 128 = CHARS.getD (128 * (CHARS.length - 1) / 255) ' ' :=
  ⟨by decide, (get_char_spec 128 (by decide)).1⟩

/-- C8.  The ramp index computed by `get_char` is monotonically non-decreasing
in the luminance value. -/
theorem char_index_mono (b1 b2 : ℕ) (h12 : b1 ≤ b2) (h255 : b2 ≤ 255) :
    char_index b1 ≤ char_index b2 := by
  rw [char_index_eq_div, char_index_eq_div]
  exact Nat.div_le_div_right (Nat.mul_le_mul_right _ h12)

/-- Witness for `char_index_mono` at the extreme luminances. -/
theorem char_index_mono_witness :
    (0 ≤ 255 ∧ 255 ≤ 255) ∧ char_index 0 ≤ char_index 255 :=
  ⟨⟨by decide, by decide⟩, char_index_mono 0 255 (by decide) (by decide)⟩

/-- Per-character body of `VideoToASCII._sanitize_ascii` (lines 397-408):
newline is kept, printable ASCII (32..126) is kept, everything else becomes a
space. -/
def sanChar (c : Char) : Char :=
  if c = '\n' then c
  else if 32 ≤ c.toNat ∧ c.toNat ≤ 126 then c
  else ' '

/-- `VideoToASCII._sanitize_ascii` (lines 397-408): the loop appends the mapped
character for every input character. -/
def sanitize_ascii : List Char → List Char
  | [] => []
  | c :: rest => sanChar c :: sanitize_ascii rest

/-- C4 counterexample.  On the ANSI escape sequence `ESC [ 0 m` the sanitizer
does not remove the sequence (which would give the empty output): it keeps the
printable tail and only replaces the ESC byte by a space. -/
theorem sanitize_ascii_escape_cex :
    sanitize_ascii ['\x1b', '[', '0', 'm'] = [' ', '[', '0', 'm'] ∧
    ([' ', '[', '0', 'm'] : List Char) ≠ [] := by
  constructor
  · decide
  · decide

/-- C4 (amended).  `_sanitize_ascii` is a pure per-character map: it preserves
the length of its input (so escape sequences are never removed as sequences)
and position `i` of the output is the input character if it is a newline or
printable ASCII, and a space otherwise; in particular the ESC byte of an
escape sequence becomes a single space while the printable rest of the
sequence is kept. -/
theorem sanitize_ascii_per_char (l : List Char) :
    (sanitize_ascii l).length = l.length ∧
    ∀ i, i < l.length → (sanitize_ascii l).getD i ' ' = sanChar (l.getD i ' ') := by
  induction l with
  | nil =>
    exact ⟨rfl, fun i h => absurd h (Nat.not_lt_zero i)⟩
  | cons c rest ih =>
    refine ⟨?_, ?_⟩
    · show (sanChar c :: sanitize_ascii rest).length = (c :: rest).length
      simp [ih.1]
    · intro i hi
      cases i with
      | zero => rfl
      | succ n =>
        show (sanitize_ascii rest).getD n ' ' = sanChar (rest.getD n ' ')
        exact ih.2 n (Nat.lt_of_succ_lt_succ hi)

/-- Witness for `sanitize_ascii_per_char`: the ESC byte at position 0 maps to a
space. -/
theorem sanitize_ascii_per_char_witness :
    0 < 1 ∧ (sanitize_ascii ['\x1b']).getD 0 ' ' = sanChar '\x1b' :=
  ⟨by decide, (sanitize_ascii_per_char ['\x1b']).2 0 (by decide)⟩

/-- Helper: `sanChar` fixes newline and printable ASCII. -/
lemma sanChar_fixed (c : Char) (h : c = '\n' ∨ (32 ≤ c.toNat ∧ c.toNat ≤ 126)) :
    sanChar c = c := by
  unfold sanChar
  rcases h with h | h
  · rw [if_pos h]
  · by_cases hn : c = '\n'
    · rw [if_pos hn]
    · rw [if_neg hn, if_pos h]

/-- Helper: the output of `sanChar` is a newline or printable ASCII. -/
lemma sanChar_range (c : Char) :
    sanChar c = '\n' ∨ (32 ≤ (sanChar c).toNat ∧ (sanChar c).toNat ≤ 126) := by
  unfold sanChar
  by_cases hn : c = '\n'
  · rw [if_pos hn]
    exact Or.inl hn
  · rw [if_neg hn]
    by_cases hp : 32 ≤ c.toNat ∧ c.toNat ≤ 126
    · rw [if_pos hp]
      exact Or.inr hp
    · rw [if_neg hp]
      exact Or.inr (by decide)

/-- Helper: `sanChar` is idempotent. -/
lemma sanChar_idem (c : Char) : sanChar (sanChar c) = sanChar c :=
  sanChar_fixed _ (by
    rcases sanChar_range c with h | h
    · exact Or.inl h
    · exact Or.inr h)

/-- C9.  The sanitizer is idempotent, and every character it emits is a newline
or printable ASCII in `[0x20, 0x7E]`. -/
theorem sanitize_ascii_idempotent (l : List Char) :
    sanitize_ascii (sanitize_ascii l) = sanitize_ascii l ∧
    ∀ c ∈ sanitize_ascii l, c = '\n' ∨ (32 ≤ c.toNat ∧ c.toNat ≤ 126) := by
  induction l with
  | nil =>
    exact ⟨rfl, by intro c hc; cases hc⟩
  | cons a rest ih =>
    constructor
    · show sanChar (sanChar a) :: sanitize_ascii (sanitize_ascii rest)
          = sanChar a :: sanitize_ascii rest
      rw [sanChar_idem, ih.1]
    · intro c hc
      rcases List.mem_cons.mp hc with h | h
      · rw [h]
        exact sanChar_range a
      · exact ih.2 c h

/-- Witness for `sanitize_ascii_idempotent` on a concrete string containing a
control byte. -/
theorem sanitize_ascii_idempotent_witness :
    sanitize_ascii (sanitize_ascii ['a', '\x00']) = sanitize_ascii ['a', '\x00'] ∧
    ('a' = '\n' ∨ (32 ≤ 'a'.toNat ∧ 'a'.toNat ≤ 126)) :=
  ⟨(sanitize_ascii_idempotent ['a', '\x00']).1,
   (sanitize_ascii_idempotent ['a', '\x00']).2 'a' (by decide)⟩

/-- Grayscale luminance of one RGB pixel as computed by PIL's `convert("L")`
(ITU-R 601-2 weights with rounding: `(r*19595 + g*38470 + b*7471 + 0x8000) >> 16`),
which `ImageEnhance.Contrast` applies to build its degenerate image. -/
def lum (p : Pixel) : ℕ :=
  (p.1 * 19595 + p.2.1 * 38470 + p.2.2 * 7471 + 32768) / 65536

/-- Number of pixels of a frame. -/
def pixelCount (img : Frame) : ℕ := (img.map List.length).sum

/-- Sum of the grayscale luminances of all pixels of a frame. -/
def lumSum (img : Frame) : ℕ :=
  (img.map fun row => (row.map lum).sum).sum

/-- The midpoint `int(ImageStat.Stat(image.convert("L")).mean[0] + 0.5)` used by
PIL's contrast enhancer: the mean luminance of the frame, rounded half up. -/
def meanInt (img : Frame) : ℕ :=
  ⌊(lumSum img : ℚ) / (pixelCount img : ℚ) + 1 / 2⌋₊

/-- A frame whose channels are all 8-bit values. -/
def ValidFrame (img : Frame) : Prop :=
  ∀ row ∈ img, ∀ p ∈ row, p.1 ≤ 255 ∧ p.2.1 ≤ 255 ∧ p.2.2 ≤ 255

instance (img : Frame) : Decidable (ValidFrame img) := by
  unfold ValidFrame
  infer_instance

/-- One channel of PIL's `Image.blend(im1, im2, alpha)`:
`im1 + alpha * (im2 - im1)`, clipped to `[0, 255]` and truncated to an
unsigned byte (truncation equals the floor on the non-negative clipped
value). -/
def blendPx (a : ℚ) (p q : ℕ) : ℕ :=
  if (p : ℚ) + a * ((q : ℚ) - (p : ℚ)) ≤ 0 then 0
  else if 255 ≤ (p : ℚ) + a * ((q : ℚ) - (p : ℚ)) then 255
  else ⌊(p : ℚ) + a * ((q : ℚ) - (p : ℚ))⌋₊

/-- PIL's `Image.blend` applied channel-wise over two frames of equal shape. -/
def blend (a : ℚ) (im1 im2 : Frame) : Frame :=
  im1.zipWith
    (fun r1 r2 =>
      r1.zipWith
        (fun p q => (blendPx a p.1 q.1, blendPx a p.2.1 q.2.1, blendPx a p.2.2 q.2.2))
        r2)
    im2

/-- The degenerate image built by PIL's `ImageEnhance.Contrast`: every pixel of
the frame replaced by the rounded mean luminance, converted back to RGB. -/
def degenerate (img : Frame) : Frame :=
  img.map (List.map fun _ => (meanInt img, meanInt img, meanInt img))

/-- `ImageToASCII.adjust_image` (lines 41-46): if the configured contrast factor
differs from 1.0, return `ImageEnhance.Contrast(image).enhance(contrast)`,
modelled as `Image.blend(degenerate, image, contrast)`; otherwise return the
image unchanged. -/
def adjust_image (contrast : ℚ) (img : Frame) : Frame :=
  if contrast = 1 then img else blend contrast (degenerate img) img

/-- Helper: the luminance of an 8-bit pixel is at most 255. -/
lemma lum_le_255 (p : Pixel) (h : p.1 ≤ 255 ∧ p.2.1 ≤ 255 ∧ p.2.2 ≤ 255) :
    lum p ≤ 255 := by
  unfold lum
  have hnum : p.1 * 19595 + p.2.1 * 38470 + p.2.2 * 7471 + 32768
      ≤ 255 * 19595 + 255 * 38470 + 255 * 7471 + 32768 := by
    have h1 := Nat.mul_le_mul_right 19595 h.1
    have h2 := Nat.mul_le_mul_right 38470 h.2.1
    have h3 := Nat.mul_le_mul_right 7471 h.2.2
    omega
  calc (p.1 * 19595 + p.2.1 * 38470 + p.2.2 * 7471 + 32768) / 65536
      ≤ (255 * 19595 + 255 * 38470 + 255 * 7471 + 32768) / 65536 :=
        Nat.div_le_div_right hnum
    _ = 255 := by decide

/-- Helper: the luminance sum of a row of 8-bit pixels is at most 255 per pixel. -/
lemma rowLumSum_le (row : List Pixel)
    (h : ∀ p ∈ row, p.1 ≤ 255 ∧ p.2.1 ≤ 255 ∧ p.2.2 ≤ 255) :
    (row.map lum).sum ≤ 255 * row.length := by
  induction row with
  | nil => simp
  | cons p rest ih =>
    have hp := lum_le_255 p (h p (List.mem_cons_self p rest))
    have hr := ih (fun q hq => h q (List.mem_cons_of_mem p hq))
    simp only [List.map_cons, List.sum_cons, List.length_cons]
    calc lum p + (rest.map lum).sum ≤ 255 + 255 * rest.length := by omega
      _ = 255 * (rest.length + 1) := by ring

/-- Helper: the luminance sum of an 8-bit frame is at most 255 per pixel. -/
lemma lumSum_le (img : Frame) (h : ValidFrame img) :
    lumSum img ≤ 255 * pixelCount img := by
  unfold lumSum pixelCount
  induction img with
  | nil => simp
  | cons row rest ih =>
    have hrow := rowLumSum_le row (h row (List.mem_cons_self row rest))
    have hr := ih (fun r hr => h r (List.mem_cons_of_mem row hr))
    simp only [List.map_cons, List.sum_cons]
    calc (row.map lum).sum + (rest.map fun r => (r.map lum).sum).sum
        ≤ 255 * row.length + 255 * (rest.map List.length).sum := by omega
      _ = 255 * (row.length + (rest.map List.length).sum) := by ring

/-- Helper: the rounded mean luminance of an 8-bit frame is at most 255. -/
lemma meanInt_le (img : Frame) (h : ValidFrame img) : meanInt img ≤ 255 := by
  unfold meanInt
  have hx : (lumSum img : ℚ) / (pixelCount img : ℚ) + 1 / 2 ≤ 511 / 2 := by
    rcases Nat.eq_zero_or_pos (pixelCount img) with h0 | hpos
    · rw [h0]
      norm_num
    · have hc : (0 : ℚ) < (pixelCount img : ℚ) := by exact_mod_cast hpos
      have hs : (lumSum img : ℚ) ≤ 255 * (pixelCount img : ℚ) := by
        exact_mod_cast lumSum_le img h
      have : (lumSum img : ℚ) / (pixelCount img : ℚ) ≤ 255 :=
        (div_le_iff₀ hc).mpr (by linarith)
      linarith
  calc meanInt img ≤ ⌊(511 : ℚ) / 2⌋₊ := Nat.floor_mono hx
    _ = 255 := by norm_num [Nat.floor_eq_iff]

/-- Helper: blending with factor 0 returns the first image's channel, for
channel values in range. -/
lemma blendPx_zero (m q : ℕ) (hm : m ≤ 255) : blendPx 0 m q = m := by
  unfold blendPx
  simp only [zero_mul, add_zero]
  rcases Nat.eq_zero_or_pos m with h0 | hpos
  · subst h0
    norm_num
  · rw [if_neg (not_le.mpr (by exact_mod_cast hpos))]
    by_cases h255 : m = 255
    · subst h255
      rw [if_pos (by norm_num)]
    · rw [if_neg (not_le.mpr (by exact_mod_cast lt_of_le_of_ne hm h255))]
      exact Nat.floor_natCast m

/-- Helper: blending the degenerate image with factor 0 yields the degenerate
image. -/
lemma blend_zero_degenerate (m : ℕ) (hm : m ≤ 255) (img : Frame) :
    blend 0 (img.map (List.map fun _ => (m, m, m))) img
      = img.map (List.map fun _ => (m, m, m)) := by
  unfold blend
  induction img with
  | nil => rfl
  | cons row rest ih =>
    simp only [List.map_cons, List.zipWith_cons_cons, List.cons.injEq]
    refine ⟨?_, ih⟩
    induction row with
    | nil => rfl
    | cons p t iht =>
      simp only [List.map_cons, List.zipWith_cons_cons, List.cons.injEq]
      exact ⟨by simp [blendPx_zero m p.1 hm, blendPx_zero m p.2.1 hm,
        blendPx_zero m p.2.2 hm], iht⟩

/-- C3 counterexample.  An all-black 1×1 frame at contrast factor 0 stays
all-black: the enhancer flattens to the frame's mean luminance (here 0), not
to the midpoint 128 claimed by the spec. -/
theorem adjust_image_midpoint_cex :
    adjust_image 0 [[((0, 0, 0) : Pixel)]] = [[((0, 0, 0) : Pixel)]] ∧
    ([[((0, 0, 0) : Pixel)]] : Frame) ≠ [[((128, 128, 128) : Pixel)]] := by
  constructor
  · have hm : meanInt [[((0, 0, 0) : Pixel)]] = 0 := by
      unfold meanInt lumSum pixelCount lum
      norm_num [Nat.floor_eq_iff]
    unfold adjust_image
    rw [if_neg (by norm_num)]
    unfold blend degenerate
    rw [hm]
    simp [blendPx_zero 0 0 (by decide)]
  · decide

/-- C3 (amended).  For an 8-bit frame, contrast factor 1.0 returns the frame
unchanged, and contrast factor 0 flattens every pixel to the frame's rounded
mean grayscale value `meanInt` (not necessarily the midpoint 128). -/
theorem adjust_image_contrast (img : Frame) (h : ValidFrame img) :
    adjust_image 1 img = img ∧
    adjust_image 0 img
      = img.map (List.map fun _ => (meanInt img, meanInt img, meanInt img)) := by
  refine ⟨if_pos rfl, ?_⟩
  unfold adjust_image
  rw [if_neg (by norm_num)]
  unfold degenerate
  exact blend_zero_degenerate (meanInt img) (meanInt_le img h) img

/-- Witness for `adjust_image_contrast` on a concrete valid frame. -/
theorem adjust_image_contrast_witness :
    ValidFrame [[((10, 20, 30) : Pixel)]] ∧
    adjust_image 1 [[((10, 20, 30) : Pixel)]] = [[((10, 20, 30) : Pixel)]] :=
  ⟨by decide, (adjust_image_contrast [[((10, 20, 30) : Pixel)]] (by decide)).1⟩

/-- Python `str.strip()` whitespace test. -/
def isPySpace (c : Char) : Bool :=
  c == ' ' || c == '\t' || c == '\n' || c == '\r' || c == '\x0b' || c == '\x0c'

/-- Python `str.strip()`: drop leading and trailing whitespace. -/
def pyStrip (l : List Char) : List Char :=
  ((l.dropWhile isPySpace).reverse.dropWhile isPySpace).reverse

/-- Python `str.split("\n")`: split on every newline, keeping empty pieces. -/
def splitLines : List Char → List (List Char)
  | [] => [[]]
  | c :: rest =>
    if c = '\n' then [] :: splitLines rest
    else
      match splitLines rest with
      | [] => [[c]]
      | r :: rs => (c :: r) :: rs

/-- The line list `ascii_frame.strip().split("\n")` used by the export paths
(lines 258, 317, 362). -/
def gridLines (text : List Char) : List (List Char) :=
  splitLines (pyStrip text)

/-- The grid width `max(len(line) for line in lines) if lines else 0`
(lines 260, 319). -/
def maxLen (lines : List (List Char)) : ℕ :=
  lines.foldr (fun l m => max l.length m) 0

/-- Fixed glyph cell width in pixels (`char_width = 8`). -/
def CHAR_W : ℕ := 8

/-- Fixed glyph cell height in pixels (`char_height = 14`). -/
def CHAR_H : ℕ := 14

/-- Abstraction of the external `cv2.putText` glyph shapes: given a character
and the text origin, the set of absolute pixel coordinates `(x, y)` the call
paints.  The renderer clips them to the buffer. -/
abbrev GlyphFn := Char → ℕ → ℕ → List (ℕ × ℕ)

/-- The all-black buffer `np.zeros((frame_height, frame_width, 3))`. -/
def blankRaster (h w : ℕ) : Raster :=
  List.replicate h (List.replicate w ((0, 0, 0) : Pixel))

/-- Paint one pixel of the buffer in place; out-of-bounds coordinates are
ignored (clipping, as in `cv2.putText`). -/
def setPix (img : Raster) (y x : ℕ) (p : Pixel) : Raster :=
  img.set y ((img.getD y []).set x p)

/-- Model of one `cv2.putText` call: paint every glyph pixel with the chosen
color. -/
def drawText (glyph : GlyphFn) (color : Pixel) (img : Raster) (c : Char)
    (ox oy : ℕ) : Raster :=
  (glyph c ox oy).foldl (fun im q => setPix im q.2 q.1 color) img

/-- The per-line `line.ljust(ascii_width)[:ascii_width]` of the export loops
(lines 274, 367): pad with spaces then truncate to exactly `w` characters. -/
def padTruncRow (w : ℕ) (l : List Char) : List Char :=
  List.take w (l ++ List.replicate (w - l.length) ' ')

/-- The inner loop of the renderer: draw the characters of one (already
padded/truncated) line at cells `x, x+1, ...` of row `y`, each at text origin
`(x * char_width, (y + 1) * char_height - 4)`. -/
def renderRow (glyph : GlyphFn) (color : Pixel) (y : ℕ) :
    ℕ → Raster → List Char → Raster
  | _, img, [] => img
  | x, img, c :: rest =>
    renderRow glyph color y (x + 1)
      (drawText glyph color img c (x * CHAR_W) ((y + 1) * CHAR_H - 4)) rest

/-- The outer loop of the renderer: draw each line after
`line.ljust(ascii_width)[:ascii_width]`. -/
def renderRows (glyph : GlyphFn) (color : Pixel) (W : ℕ) :
    ℕ → Raster → List (List Char) → Raster
  | _, img, [] => img
  | y, img, line :: rest =>
    renderRows glyph color W (y + 1)
      (renderRow glyph color y 0 img (padTruncRow W line)) rest

/-- One `AsciiRenderer` pass of `VideoToASCII.export_video` (lines 360-386):
render a grid into a fresh black buffer of the fixed stream dimensions, using
at most `H` lines (`if y >= ascii_height: break`). -/
def renderGrid (glyph : GlyphFn) (color : Pixel) (W H : ℕ)
    (lines : List (List Char)) : Raster :=
  renderRows glyph color W 0 (blankRaster (H * CHAR_H) (W * CHAR_W)) (lines.take H)

/-- A raster has exactly `h` rows, each of exactly `w` pixels. -/
def HasDims (r : Raster) (h w : ℕ) : Prop :=
  r.length = h ∧ ∀ row ∈ r, row.length = w

/-- Helper: membership in `List.set` comes from the original list or is the
new element placed in bounds. -/
lemma mem_set_cases {α : Type} {l : List α} {n : ℕ} {a x : α}
    (hx : x ∈ l.set n a) : x ∈ l ∨ (x = a ∧ n < l.length) := by
  induction l generalizing n with
  | nil => simp [List.set] at hx
  | cons b t ih =>
    cases n with
    | zero =>
      rcases List.mem_cons.mp hx with h | h
      · exact Or.inr ⟨h, Nat.succ_pos _⟩
      · exact Or.inl (List.mem_cons_of_mem b h)
    | succ m =>
      rcases List.mem_cons.mp hx with h | h
      · exact Or.inl (by rw [h]; exact List.mem_cons_self b t)
      · rcases ih h with h2 | h2
        · exact Or.inl (List.mem_cons_of_mem b h2)
        · exact Or.inr ⟨h2.1, Nat.succ_lt_succ h2.2⟩

/-- Helper: painting a pixel never changes the buffer dimensions. -/
lemma hasDims_setPix (img : Raster) (y x : ℕ) (p : Pixel) (H W : ℕ)
    (h : HasDims img H W) : HasDims (setPix img y x p) H W := by
  obtain ⟨h1, h2⟩ := h
  unfold setPix
  refine ⟨by rw [List.length_set]; exact h1, ?_⟩
  intro row hr
  rcases mem_set_cases hr with hmem | ⟨heq, hlt⟩
  · exact h2 row hmem
  · have hy : y < img.length := hlt
    have hget : img.getD y [] = img.get ⟨y, hy⟩ := by
      rw [List.getD_eq_get?, List.get?_eq_get hy]
      rfl
    rw [heq, List.length_set, hget]
    exact h2 _ (List.get_mem img y hy)

/-- Helper: one `putText` call never changes the buffer dimensions. -/
lemma hasDims_drawText (glyph : GlyphFn) (color : Pixel) (c : Char)
    (ox oy : ℕ) (img : Raster) (H W : ℕ) (h : HasDims img H W) :
    HasDims (drawText glyph color img c ox oy) H W := by
  unfold drawText
  generalize glyph c ox oy = ps
  induction ps generalizing img with
  | nil => exact h
  | cons q t ih =>
    exact ih _ (hasDims_setPix img q.2 q.1 color H W h)

/-- Helper: rendering one line never changes the buffer dimensions. -/
lemma hasDims_renderRow (glyph : GlyphFn) (color : Pixel) (y : ℕ)
    (cs : List Char) (x : ℕ) (img : Raster) (H W : ℕ) (h : HasDims img H W) :
    HasDims (renderRow glyph color y x img cs) H W := by
  induction cs generalizing x img with
  | nil => exact h
  | cons c rest ih =>
    exact ih _ _ (hasDims_drawText glyph color c _ _ img H W h)

/-- Helper: rendering a list of lines never changes the buffer dimensions. -/
lemma hasDims_renderRows (glyph : GlyphFn) (color : Pixel) (W0 : ℕ)
    (lines : List (List Char)) (y : ℕ) (img : Raster) (H W : ℕ)
    (h : HasDims img H W) :
    HasDims (renderRows glyph color W0 y img lines) H W := by
  induction lines generalizing y img with
  | nil => exact h
  | cons line rest ih =>
    exact ih _ _ (hasDims_renderRow glyph color y _ 0 img H W h)

/-- Helper: the blank buffer has the requested dimensions. -/
lemma hasDims_blank (h w : ℕ) : HasDims (blankRaster h w) h w := by
  refine ⟨List.length_replicate h _, ?_⟩
  intro row hr
  rw [List.eq_of_mem_replicate hr]
  exact List.length_replicate w _

/-- Helper: every rendered frame has exactly the fixed stream dimensions. -/
lemma hasDims_renderGrid (glyph : GlyphFn) (color : Pixel) (W H : ℕ)
    (lines : List (List Char)) :
    HasDims (renderGrid glyph color W H lines) (H * CHAR_H) (W * CHAR_W) :=
  hasDims_renderRows glyph color W _ 0 _ _ _ (hasDims_blank _ _)

/-- Helper: `ljust`-then-slice always returns exactly `w` characters. -/
lemma padTruncRow_length (w : ℕ) (l : List Char) :
    (padTruncRow w l).length = w := by
  simp [padTruncRow]
  omega

/-- Helper: `ljust`-then-slice fixes lines already of width `w`. -/
lemma padTruncRow_eq_self {w : ℕ} {l : List Char} (h : l.length = w) :
    padTruncRow w l = l := by
  subst h
  simp [padTruncRow]

/-- Helper: `ljust`-then-slice is idempotent. -/
lemma padTruncRow_idem (w : ℕ) (l : List Char) :
    padTruncRow w (padTruncRow w l) = padTruncRow w l :=
  padTruncRow_eq_self (padTruncRow_length w l)

/-- Helper: pre-padding every line does not change the rendering, because the
renderer pads each line itself. -/
lemma renderRows_map_pad (glyph : GlyphFn) (color : Pixel) (W : ℕ)
    (lines : List (List Char)) :
    ∀ (y : ℕ) (img : Raster),
      renderRows glyph color W y img (lines.map (padTruncRow W))
        = renderRows glyph color W y img lines := by
  induction lines with
  | nil => intro y img; rfl
  | cons l t ih =>
    intro y img
    show renderRows glyph color W (y + 1)
        (renderRow glyph color y 0 img (padTruncRow W (padTruncRow W l)))
        (t.map (padTruncRow W))
      = renderRows glyph color W (y + 1)
        (renderRow glyph color y 0 img (padTruncRow W l)) t
    rw [padTruncRow_idem, ih]

/-- The state and output of one `VideoToASCII.export_video` call, with the
temporary mutation of `self.converter.width` (lines 300-302, restored at
lines 311, 342 and 394-395) made explicit. -/
structure ExportOut where
  widthDuring : ℕ
  widthAfter : ℕ
  frameW : ℕ
  frameH : ℕ
  rasters : List Raster
deriving DecidableEq

/-- The successful-run output of `export_video`: dimensions are established
from the first frame's sanitized, stripped grid; every source frame is
converted with the capped width, sanitized, and rendered at the fixed
dimensions, in source order. -/
def mkExportOut (width : ℕ) (conv : ℕ → Frame → List Char) (glyph : GlyphFn)
    (color : Pixel) (f0 : Frame) (frames : List Frame) : ExportOut :=
  let safe := min width 150
  let lines0 := gridLines (sanitize_ascii (conv safe f0))
  { widthDuring := safe
    widthAfter := width
    frameW := maxLen lines0 * CHAR_W
    frameH := lines0.length * CHAR_H
    rasters := frames.map fun f =>
      renderGrid glyph color (maxLen lines0) lines0.length
        (gridLines (sanitize_ascii (conv safe f))) }

/-- `VideoToASCII.export_video` (lines 297-395), modelled over the list of
decodable source frames.  `conv` is `convert_frame` as a function of the
(temporarily mutated) converter width; the external video writer is modelled
as the ordered list of written rasters.  An unreadable first frame raises
(after restoring the width), modelled as `none`. -/
def exportVideo (width : ℕ) (conv : ℕ → Frame → List Char) (glyph : GlyphFn)
    (color : Pixel) : List Frame → Option ExportOut
  | [] => none
  | f0 :: rest => some (mkExportOut width conv glyph color f0 (f0 :: rest))

/-- `VideoToASCII.export_gif` (lines 410-453): export the ASCII video, read it
back frame by frame (modelled as the identity on the written raster list),
and save all frames as a looping animation with per-frame duration
`int(1000 / fps)` milliseconds; nothing is written when no frame was read. -/
def exportGif (width : ℕ) (conv : ℕ → Frame → List Char) (glyph : GlyphFn)
    (color : Pixel) (frames : List Frame) (fps : ℚ) :
    Option (List Raster × ℕ) :=
  match exportVideo width conv glyph color frames with
  | none => none
  | some o =>
    if o.rasters.isEmpty then none
    else some (o.rasters, ⌊(1000 : ℚ) / fps⌋₊)

/-- The frame index `int(time_sec * fps)` targeted by
`VideoToASCII.get_frame_at_time` (line 228), for the non-negative seek times
the route supplies. -/
def frameNo (t fps : ℚ) : ℕ := (⌊t * fps⌋).toNat

/-- `VideoToASCII.get_frame_at_time` (lines 222-237): seek to the targeted
frame; if it cannot be decoded return the empty string, otherwise convert
exactly that frame.  Decoding is modelled by list lookup into the decodable
frames. -/
def get_frame_at_time (frames : List Frame) (fps t : ℚ)
    (convert : Frame → List Char) : List Char :=
  match frames.get? (frameNo t fps) with
  | none => []
  | some f => convert f

/-- A concrete 1×1 source frame used by the witnesses. -/
def testFrame : Frame := [[(0, 0, 0)]]

/-- A concrete frame-to-text conversion used by the witnesses: every frame
becomes the one-cell grid `"#\n"`. -/
def convT : ℕ → Frame → List Char := fun _ _ => ['#', '\n']

/-- A concrete glyph shape function used by the witnesses: no pixels painted. -/
def glyphT : GlyphFn := fun _ _ _ => []

/-- The export output produced by `convT`/`glyphT` on a single frame at
width 100. -/
def sampleOut : ExportOut :=
  { widthDuring := 100
    widthAfter := 100
    frameW := 8
    frameH := 14
    rasters := [blankRaster 14 8] }

/-- C6.  On a non-empty source, `export_video` writes one raster per source
frame in source order; the pixel dimensions are fixed for the whole stream at
`(firstGridWidth * 8, firstGridHeight * 14)`, established from the first
frame's grid; every written raster has exactly those dimensions; and
rendering a grid equals rendering the grid padded/truncated to the fixed
width and height. -/
theorem export_video_fixed_dims (width : ℕ) (conv : ℕ → Frame → List Char)
    (glyph : GlyphFn) (color : Pixel) (f0 : Frame) (fs : List Frame) :
    ((exportVideo width conv glyph color (f0 :: fs)).map fun o => o.rasters.length)
        = some (fs.length + 1) ∧
    (∀ o, exportVideo width conv glyph color (f0 :: fs) = some o →
      (o.frameW = maxLen (gridLines (sanitize_ascii (conv (min width 150) f0))) * CHAR_W ∧
       o.frameH = (gridLines (sanitize_ascii (conv (min width 150) f0))).length * CHAR_H) ∧
      (∀ r ∈ o.rasters, HasDims r o.frameH o.frameW) ∧
      (∀ i, o.rasters.get? i = ((f0 :: fs).get? i).map fun f =>
        renderGrid glyph color
          (maxLen (gridLines (sanitize_ascii (conv (min width 150) f0))))
          ((gridLines (sanitize_ascii (conv (min width 150) f0))).length)
          (gridLines (sanitize_ascii (conv (min width 150) f))))) ∧
    (∀ (W H : ℕ) (g : List (List Char)),
      renderGrid glyph color W H g
        = renderGrid glyph color W H ((g.take H).map (padTruncRow W))) := by
  refine ⟨?_, ?_, ?_⟩
  · show ((some (mkExportOut width conv glyph color f0 (f0 :: fs))).map
        fun o => o.rasters.length) = some (fs.length + 1)
    simp [mkExportOut]
  · intro o ho
    have ho' : some (mkExportOut width conv glyph color f0 (f0 :: fs)) = some o := ho
    obtain rfl := Option.some.inj ho'
    refine ⟨⟨rfl, rfl⟩, ?_, ?_⟩
    · intro r hr
      simp only [mkExportOut, List.mem_map] at hr
      obtain ⟨f, _, rfl⟩ := hr
      exact hasDims_renderGrid glyph color _ _ _
    · intro i
      show ((f0 :: fs).map fun f =>
          renderGrid glyph color
            (maxLen (gridLines (sanitize_ascii (conv (min width 150) f0))))
            ((gridLines (sanitize_ascii (conv (min width 150) f0))).length)
            (gridLines (sanitize_ascii (conv (min width 150) f)))).get? i
        = ((f0 :: fs).get? i).map fun f =>
          renderGrid glyph color
            (maxLen (gridLines (sanitize_ascii (conv (min width 150) f0))))
            ((gridLines (sanitize_ascii (conv (min width 150) f0))).length)
            (gridLines (sanitize_ascii (conv (min width 150) f)))
      exact List.get?_map _ _ _
  · intro W H g
    unfold renderGrid
    have hstep : ((g.take H).map (padTruncRow W)).take H
        = (g.take H).map (padTruncRow W) := by
      rw [List.map_take, List.take_take, min_self]
    rw [hstep, renderRows_map_pad]

/-- Witness for `export_video_fixed_dims`: the single written raster of a
one-frame export has the fixed dimensions 14×8. -/
theorem export_video_fixed_dims_witness : HasDims (blankRaster 14 8) 14 8 := by
  have h := (export_video_fixed_dims 100 convT glyphT (255, 255, 255)
      testFrame []).2.1 sampleOut (by rfl)
  exact h.2.1 (blankRaster 14 8) (List.mem_singleton.mpr rfl)

/-- C7 counterexample.  With configured width 200, the raster video export
runs the conversion with converter width 150, not 200: the configuration is
mutated while the conversion is in progress (lines 300-302). -/
theorem export_video_width_mutation_cex :
    (exportVideo 200 convT glyphT (255, 255, 255) [testFrame]).map ExportOut.widthDuring
      = some 150 ∧ (150 : ℕ) ≠ 200 :=
  ⟨rfl, by decide⟩

/-- C7 (amended).  `export_video` temporarily overwrites the converter width
with `min(width, 150)` for the duration of the export and restores the
original width afterwards: the configuration is mutated during the export but
equals the original value once the call returns. -/
theorem export_video_width_restore (width : ℕ) (conv : ℕ → Frame → List Char)
    (glyph : GlyphFn) (color : Pixel) (f0 : Frame) (fs : List Frame) :
    ∀ o, exportVideo width conv glyph color (f0 :: fs) = some o →
      o.widthDuring = min width 150 ∧ o.widthAfter = width := by
  intro o ho
  have ho' : some (mkExportOut width conv glyph color f0 (f0 :: fs)) = some o := ho
  obtain rfl := Option.some.inj ho'
  exact ⟨rfl, rfl⟩

/-- Witness for `export_video_width_restore` on a concrete one-frame export. -/
theorem export_video_width_restore_witness :
    sampleOut.widthDuring = min 100 150 ∧ sampleOut.widthAfter = 100 :=
  export_video_width_restore 100 convT glyphT (255, 255, 255) testFrame []
    sampleOut (by rfl)

/-- C5 counterexample.  At fps = 7 the per-frame duration written by
`export_gif` is `int(1000 / 7) = 142` milliseconds, while the claimed
`round(1000 / 7)` is 143. -/
theorem export_gif_duration_cex :
    (exportGif 100 convT glyphT (255, 255, 255) [testFrame] 7).map Prod.snd
      = some 142 ∧ (142 : ℤ) ≠ round ((1000 : ℚ) / 7) := by
  constructor
  · have he : exportGif 100 convT glyphT (255, 255, 255) [testFrame] 7
        = some ([blankRaster 14 8], ⌊(1000 : ℚ) / 7⌋₊) := by rfl
    have hd : ⌊(1000 : ℚ) / 7⌋₊ = 142 := by
      norm_num [Nat.floor_eq_iff]
    rw [he, hd]
    rfl
  · have hr : round ((1000 : ℚ) / 7) = 143 := by
      rw [round_eq]
      norm_num [Int.floor_eq_iff]
    rw [hr]
    decide

/-- C5 (amended).  On a non-empty source with frame rate `fps > 0`, the
animated export contains one frame per source frame (no frame skipping) and
per-frame duration `⌊1000 / fps⌋` milliseconds (truncation, not rounding);
for the spec's 5 fps scenario this is 200 ms. -/
theorem export_gif_frames_duration (width : ℕ) (conv : ℕ → Frame → List Char)
    (glyph : GlyphFn) (color : Pixel) (f0 : Frame) (fs : List Frame)
    (fps : ℚ) (hfps : 0 < fps) :
    ∀ o, exportVideo width conv glyph color (f0 :: fs) = some o →
      exportGif width conv glyph color (f0 :: fs) fps
          = some (o.rasters, ⌊(1000 : ℚ) / fps⌋₊) ∧
      o.rasters.length = fs.length + 1 := by
  intro o ho
  have ho' : some (mkExportOut width conv glyph color f0 (f0 :: fs)) = some o := ho
  obtain rfl := Option.some.inj ho'
  constructor
  · rfl
  · simp [mkExportOut]

/-- Witness for `export_gif_frames_duration`: the spec's scenario of a
10-frame, 5 fps source gives 10 output frames of 200 ms each. -/
theorem export_gif_frames_duration_witness :
    (0 : ℚ) < 5 ∧
    exportGif 100 convT glyphT (255, 255, 255)
        (testFrame :: List.replicate 9 testFrame) 5
      = some (List.replicate 10 (blankRaster 14 8), 200) := by
  refine ⟨by norm_num, ?_⟩
  have h := export_gif_frames_duration 100 convT glyphT (255, 255, 255)
      testFrame (List.replicate 9 testFrame) 5 (by norm_num)
      ⟨100, 100, 8, 14, List.replicate 10 (blankRaster 14 8)⟩ (by rfl)
  rw [h.1]
  norm_num [Nat.floor_eq_iff]

/-- C10.  If the targeted frame cannot be decoded, `get_frame_at_time` returns
the empty string without signaling an error, and the result does not depend
on the conversion pipeline (it is not invoked); if the frame is decodable,
the result is the conversion of exactly that frame. -/
theorem get_frame_at_time_spec (frames : List Frame) (fps t : ℚ)
    (convert convert' : Frame → List Char) :
    (frames.get? (frameNo t fps) = none →
      get_frame_at_time frames fps t convert = [] ∧
      get_frame_at_time frames fps t convert
        = get_frame_at_time frames fps t convert') ∧
    (∀ f, frames.get? (frameNo t fps) = some f →
      get_frame_at_time frames fps t convert = convert f) := by
  constructor
  · intro hnone
    unfold get_frame_at_time
    rw [hnone]
    exact ⟨rfl, rfl⟩
  · intro f hf
    unfold get_frame_at_time
    rw [hf]

/-- Witness for `get_frame_at_time_spec`: an empty video yields the empty
string; a one-frame video at time 0 yields the converted frame. -/
theorem get_frame_at_time_spec_witness :
    get_frame_at_time ([] : List Frame) 1 0 (fun _ => ['x']) = [] ∧
    get_frame_at_time [testFrame] 1 0 (fun _ => ['x']) = ['x'] := by
  have h0 : frameNo 0 1 = 0 := by
    norm_num [frameNo]
  refine ⟨((get_frame_at_time_spec [] 1 0 (fun _ => ['x']) (fun _ => ['y'])).1 rfl).1,
    (get_frame_at_time_spec [testFrame] 1 0 (fun _ => ['x'])
      (fun _ => ['y'])).2 testFrame ?_⟩
  rw [h0]
  rfl

end AsciiArt
